import Mathlib

set_option maxRecDepth 8000

/-!
Shallow embedding of the speculate CLI installer core
(`cli/src/speculate/cli/cli_commands.py`).

The embedding covers the five components of the installer:

* the pattern matcher `_matches_patterns` (together with a model of the
  Python `fnmatch.fnmatch` library matching for the pattern letters this
  code base uses: `*`, `?` and literal characters; character classes are
  never used by this repository and are not modelled),
* the header injector `_ensure_speculate_header`,
* the install metadata store `_update_speculate_settings` (with the YAML
  serialization layer abstracted into `YamlDoc`: a stored document either
  fails to parse, parses to a non-mapping, or parses to a mapping),
* the symlink projector `_setup_cursor_rules`,
* the orchestrator `install`.

Filesystem effects are made explicit: a target file is `Option String`
(`none` = the file does not exist), the link directory is a list of
(link name, link target) pairs, and the whole project is a `ProjectState`
record.  Sources of nondeterminism of the Python code (the current UTC
timestamp, the `importlib.metadata.version` lookup that may raise) are
threaded in as parameters.
-/

/-! ## Pattern matcher -/

/-- Glob matching as performed by Python's `fnmatch.fnmatch` on the
patterns this repository uses: `*` matches any run of characters, `?`
matches exactly one character, every other character matches itself.
Matching is case sensitive and anchored to the whole name. -/
def glob : List Char → List Char → Bool
  | [], s => s.isEmpty
  | a :: p, s =>
    if a = '*' then (List.range (s.length + 1)).any fun i => glob p (s.drop i)
    else
      match s with
      | [] => false
      | c :: s' => (a = '?' || a = c) && glob p s'

/-- Model of `fnmatch.fnmatch(filename, pat)` (`os.path.normcase` is the identity
on posix, so only the pure match remains). -/
def fnmatch (filename pat : String) : Bool :=
  glob pat.toList filename.toList

/-- Python `pattern.replace("**", "*")`: left-to-right, non-overlapping
replacement of each double star by a single star. -/
def replaceDoubleStar : List Char → List Char
  | '*' :: '*' :: rest => '*' :: replaceDoubleStar rest
  | c :: rest => c :: replaceDoubleStar rest
  | [] => []

/-- The `normalize` closure (renamed: Mathlib already has a `normalize`) inside `_matches_patterns`. -/
def normalizePat (pat : String) : String :=
  ⟨replaceDoubleStar pat.toList⟩

/-- Python truthiness of an optional list (`if include:` is false both for
`None` and for the empty list). -/
def truthy : Option (List String) → Bool
  | none => false
  | some l => !l.isEmpty

/-- Model of `any(fnmatch.fnmatch(filename, normalize(p)) for p in pats)`. -/
def anyMatch (filename : String) (pats : List String) : Bool :=
  pats.any fun p => fnmatch filename (normalizePat p)

/-- Model of `_matches_patterns(filename, include, exclude)`.  (`include` is a Lean
keyword, hence the `incPats`/`excPats` binder names.) -/
def matches_patterns (filename : String) (incPats excPats : Option (List String)) : Bool :=
  if truthy incPats && !anyMatch filename (incPats.getD []) then false
  else if truthy excPats && anyMatch filename (excPats.getD []) then false
  else true

/-! ## Header injector -/

def SPECULATE_MARKER : String := "Speculate project structure"

def SPECULATE_HEADER : String :=
  "IMPORTANT: You MUST read ./docs/development.md and ./docs/docs-overview.md for project documentation.\n(This project uses " ++ SPECULATE_MARKER ++ ".)"

/-- Boolean list prefix test (the building block of the substring test;
mirrors `List.isPrefixOf`, redefined here so that every definition in
this file reduces in the kernel). -/
def isPref : List Char → List Char → Bool
  | [], _ => true
  | _ :: _, [] => false
  | a :: p, b :: s => a == b && isPref p s

/-- Python substring test `pat in s`: `pat` occurs (as a contiguous run)
at some position of `s`. -/
def listContains (pat : List Char) : List Char → Bool
  | [] => isPref pat []
  | c :: s => isPref pat (c :: s) || listContains pat s

/-- Model of the test `SPECULATE_MARKER in content`. -/
def containsMarker (content : String) : Bool :=
  listContains SPECULATE_MARKER.toList content.toList

/-- Number of positions of `s` at which `pat` occurs as a substring
(used to state the "marker occurs exactly once" invariant). -/
def countOcc (pat : List Char) : List Char → Nat
  | [] => if isPref pat [] then 1 else 0
  | c :: s => (if isPref pat (c :: s) then 1 else 0) + countOcc pat s

inductive HeaderAction where
  | created
  | updated
  | unchanged
deriving DecidableEq

/-- Model of `_ensure_speculate_header(path)`.  The file is its optional content
(`none` = the file does not exist); the result is the content after the
call together with the action taken (the Python function reports the
action through `print_info`/`print_success`; on `unchanged` it returns
without writing, which is extensionally the identity on the content). -/
def ensure_speculate_header : Option String → String × HeaderAction
  | some content =>
    if containsMarker content then (content, .unchanged)
    else (SPECULATE_HEADER ++ "\n\n" ++ content, .updated)
  | none => (SPECULATE_HEADER ++ "\n", .created)

/-! ## Install metadata store -/

/-- A YAML value (string scalars and nested mappings; enough to model any
record the installer reads or writes). -/
inductive YVal where
  | str : String → YVal
  | nested : List (String × YVal) → YVal

/-- The parse behaviour of a stored YAML document, abstracting the external
`yaml.safe_load`: `malformed` raises a `yaml.YAMLError` (for example the
content `"a: ["`), `nonDict` parses fine but not to a mapping (for example
the content `"just a string"`), `dict m` parses to the mapping `m`. -/
inductive YamlDoc where
  | malformed : YamlDoc
  | nonDict : YamlDoc
  | dict : List (String × YVal) → YamlDoc

/-- Model of `_load_yaml(path)`: `yaml.safe_load` followed by the `isinstance(result,
dict)` guard that turns a non-mapping into `{}`.  A parse error is NOT
caught and propagates (`.error ()`). -/
def load_yaml : YamlDoc → Except Unit (List (String × YVal))
  | .malformed => .error ()
  | .nonDict => .ok []
  | .dict m => .ok m

/-- Python `d[k] = v` on an insertion-ordered mapping represented as an
association list: overwrite in place if the key is present, append
otherwise. -/
def dictSet (d : List (String × YVal)) (k : String) (v : YVal) : List (String × YVal) :=
  if d.any (fun p => p.1 == k) then d.map fun p => if p.1 == k then (k, v) else p
  else d ++ [(k, v)]

/-- Python `d.get(k, dflt)`. -/
def dictGetD (d : List (String × YVal)) (k : String) (dflt : YVal) : YVal :=
  match d.find? (fun p => p.1 == k) with
  | some p => p.2
  | none => dflt

/-- Model of `_update_speculate_settings(project_root)`.  `now` is the current UTC
timestamp string, `cliVersion` the result of `version("speculate")`
(`none` models the lookup raising, which the code turns into the literal
`"unknown"`), `answersFile`/`settingsFile` the optional stored documents
`.copier-answers.yml` and `.speculate/settings.yml`.  The result is the
mapping written back (atomically) to the settings file, or `.error ()`
when an uncaught YAML parse error escapes. -/
def update_speculate_settings (now : String) (cliVersion : Option String)
    (answersFile settingsFile : Option YamlDoc) :
    Except Unit (List (String × YVal)) :=
  match (match settingsFile with
         | some doc => load_yaml doc
         | none => .ok []) with
  | .error e => .error e
  | .ok settings =>
    let settings := dictSet settings "last_update" (.str now)
    let settings := dictSet settings "last_cli_version" (.str (cliVersion.getD "unknown"))
    match answersFile with
    | none => .ok settings
    | some doc =>
      match load_yaml doc with
      | .error e => .error e
      | .ok answers =>
        .ok (dictSet settings "last_docs_version" (dictGetD answers "_commit" (.str "unknown")))

/-! ## Symlink projector -/

/-- The enumeration filter of `rules_dir.glob("*.md")`.  (`pathlib` glob
compiles the pattern through `fnmatch.translate`, which has no special
case for leading dots, so unlike the `glob` module it also matches
hidden files.) -/
def isMdName (n : String) : Bool :=
  glob "*.md".toList n.toList

/-- Model of `Path(n).stem` for a name matched by `*.md`: the name without
its final `".md"` suffix.  `Path.stem` strips the suffix only when the
final dot is not the first character, so the name `".md"` is its own
stem. -/
def mdStem (n : String) : String :=
  if n.toList.length ≤ 3 then n else ⟨n.toList.take (n.toList.length - 3)⟩

/-- Lexicographic comparison of names (the order used by Python
`sorted(...)` on the enumerated paths). -/
def charListLt : List Char → List Char → Bool
  | [], [] => false
  | [], _ :: _ => true
  | _ :: _, [] => false
  | a :: s, b :: t => if a = b then charListLt s t else decide (a < b)

def insertSorted (x : String) : List String → List String
  | [] => [x]
  | y :: ys => if charListLt y.toList x.toList then y :: insertSorted x ys else x :: y :: ys

/-- Model of `sorted(...)` by name. -/
def sortNames (l : List String) : List String :=
  l.foldr insertSorted []

/-- Model of `link_path.unlink()` after the `exists() or is_symlink()` test: drop
any directory entry with the given name. -/
def removeLink (links : List (String × String)) (nm : String) : List (String × String) :=
  links.filter fun l => l.1 != nm

/-- The `for rule_file in sorted(rules_dir.glob("*.md"))` loop: thread the
link-directory contents and the `linked_count`/`skipped_count` counters
through the files.  A created link is the pair (stem + ".mdc", source
file name); the relative target `../../docs/general/agent-rules/<name>`
is determined by the source name, so the name stands for it. -/
def processRules (incPats excPats : Option (List String)) :
    List String → List (String × String) → Nat → Nat →
      List (String × String) × Nat × Nat
  | [], links, linked, skipped => (links, linked, skipped)
  | f :: fs, links, linked, skipped =>
    if matches_patterns f incPats excPats then
      processRules incPats excPats fs
        (removeLink links (mdStem f ++ ".mdc") ++ [(mdStem f ++ ".mdc", f)])
        (linked + 1) skipped
    else
      processRules incPats excPats fs links linked (skipped + 1)

structure RulesResult where
  links : List (String × String)
  linkedCount : Nat
  skippedCount : Nat
  warnedMissing : Bool
deriving DecidableEq

/-- Model of `_setup_cursor_rules(project_root, include, exclude)`.  `rulesDir` is
the optional contents (file names) of `docs/general/agent-rules/`
(`none` = the directory does not exist), `links0` the entries already in
`.cursor/rules/`.  When the source directory is missing the function
prints a warning (`warnedMissing`) and returns without touching the
links. -/
def setup_cursor_rules (rulesDir : Option (List String))
    (incPats excPats : Option (List String)) (links0 : List (String × String)) :
    RulesResult :=
  match rulesDir with
  | none => ⟨links0, 0, 0, true⟩
  | some files =>
    let mdFiles := sortNames (files.filter isMdName)
    let r := processRules incPats excPats mdFiles links0 0 0
    ⟨r.1, r.2.1, r.2.2, false⟩

/-! ## Orchestrator -/

structure ProjectState where
  docsExists : Bool
  settingsFile : Option YamlDoc
  answersFile : Option YamlDoc
  claudeMd : Option String
  agentsMd : Option String
  rulesDir : Option (List String)
  cursorLinks : List (String × String)

/-- Outcome of `install`: `exitError` is the `SystemExit(1)` raised when
`docs/` is missing, `raised` an uncaught exception (YAML parse error from
the settings step), `ok` normal completion; each carries the project
state at termination. -/
inductive InstallResult where
  | exitError : ProjectState → InstallResult
  | raised : ProjectState → InstallResult
  | ok : ProjectState → InstallResult

/-- Model of `install(include, exclude)`: precondition check on `docs/`, then the
metadata step, then the header injection on `CLAUDE.md` and `AGENTS.md`,
then the cursor-rules projection. -/
def install (now : String) (cliVersion : Option String)
    (incPats excPats : Option (List String)) (st : ProjectState) : InstallResult :=
  if st.docsExists = false then .exitError st
  else
    match update_speculate_settings now cliVersion st.answersFile st.settingsFile with
    | .error _ => .raised st
    | .ok settings =>
      let st1 := { st with settingsFile := some (.dict settings) }
      let st2 := { st1 with claudeMd := some (ensure_speculate_header st1.claudeMd).1 }
      let st3 := { st2 with agentsMd := some (ensure_speculate_header st2.agentsMd).1 }
      let r := setup_cursor_rules st3.rulesDir incPats excPats st3.cursorLinks
      .ok { st3 with cursorLinks := r.links }

/-! ## Helper lemmas: prefixes, substring occurrences -/

theorem stringToListAppend (a b : String) : (a ++ b).toList = a.toList ++ b.toList := by
  cases a
  cases b
  rfl

theorem isPref_append_extend (pat : List Char) : ∀ (u : List Char), ∀ (t : List Char),
    isPref pat u = true → isPref pat (u ++ t) = true := by
  induction pat with
  | nil => intro u t _; rfl
  | cons a p ih =>
    intro u t h
    cases u with
    | nil => simp [isPref] at h
    | cons b u' =>
      simp only [isPref, Bool.and_eq_true, beq_iff_eq] at h
      simp only [List.cons_append, isPref, Bool.and_eq_true, beq_iff_eq]
      exact ⟨h.1, ih u' t h.2⟩

theorem isPref_append_cases (pat : List Char) : ∀ (u : List Char), ∀ (t : List Char),
    isPref pat (u ++ t) = true → isPref pat u = true ∨ isPref u pat = true := by
  induction pat with
  | nil => intro u t _; exact Or.inl rfl
  | cons a p ih =>
    intro u t h
    cases u with
    | nil => exact Or.inr rfl
    | cons b u' =>
      simp only [List.cons_append, isPref, Bool.and_eq_true, beq_iff_eq] at h
      rcases ih u' t h.2 with h1 | h2
      · exact Or.inl (by simp only [isPref, Bool.and_eq_true, beq_iff_eq]; exact ⟨h.1, h1⟩)
      · exact Or.inr (by simp only [isPref, Bool.and_eq_true, beq_iff_eq]; exact ⟨h.1.symm, h2⟩)

theorem mem_of_isPref (u : List Char) : ∀ (v : List Char), isPref u v = true →
    ∀ (c : Char), c ∈ u → c ∈ v := by
  induction u with
  | nil => intro v _ c hc; cases hc
  | cons a u' ih =>
    intro v h c hc
    cases v with
    | nil => simp [isPref] at h
    | cons b v' =>
      simp only [isPref, Bool.and_eq_true, beq_iff_eq] at h
      rcases List.mem_cons.mp hc with rfl | hc'
      · rw [h.1]; exact List.mem_cons_self _ _
      · exact List.mem_cons_of_mem _ (ih v' h.2 c hc')

theorem mem_of_getLastQ : ∀ (l : List Char) (c : Char), l.getLast? = some c → c ∈ l := by
  intro l
  induction l with
  | nil => intro c h; cases h
  | cons x l ih =>
    intro c h
    cases l with
    | nil =>
      simp only [List.getLast?_singleton, Option.some.injEq] at h
      rw [h]; exact List.mem_singleton_self c
    | cons y l' =>
      rw [List.getLast?_cons_cons] at h
      exact List.mem_cons_of_mem _ (ih c h)

theorem countOcc_append (pat : List Char) (hpat : pat ≠ []) (c : Char) (hc : c ∉ pat) :
    ∀ (h : List Char), h.getLast? = some c →
      ∀ (t : List Char), countOcc pat (h ++ t) = countOcc pat h + countOcc pat t := by
  intro h
  induction h with
  | nil => intro hlast t; cases hlast
  | cons x h' ih =>
    intro hlast t
    have hcx : c ∈ x :: h' := mem_of_getLastQ _ _ hlast
    have hhead : isPref pat ((x :: h') ++ t) = isPref pat (x :: h') := by
      cases hp : isPref pat (x :: h') with
      | true => exact isPref_append_extend pat (x :: h') t hp
      | false =>
        cases hpt : isPref pat ((x :: h') ++ t) with
        | false => rfl
        | true =>
          rcases isPref_append_cases pat (x :: h') t hpt with h1 | h2
          · rw [h1] at hp; cases hp
          · exact absurd (mem_of_isPref _ _ h2 c hcx) hc
    have htail : countOcc pat (h' ++ t) = countOcc pat h' + countOcc pat t := by
      cases h' with
      | nil =>
        cases pat with
        | nil => exact absurd rfl hpat
        | cons a p => simp [countOcc, isPref]
      | cons y h'' =>
        apply ih
        rw [List.getLast?_cons_cons] at hlast
        exact hlast
    calc countOcc pat ((x :: h') ++ t)
        = (if isPref pat ((x :: h') ++ t) then 1 else 0) + countOcc pat (h' ++ t) := rfl
      _ = (if isPref pat (x :: h') then 1 else 0) + (countOcc pat h' + countOcc pat t) := by
            rw [hhead, htail]
      _ = ((if isPref pat (x :: h') then 1 else 0) + countOcc pat h') + countOcc pat t := by
            omega
      _ = countOcc pat (x :: h') + countOcc pat t := rfl

theorem countOcc_eq_zero_iff (pat : List Char) : ∀ (s : List Char),
    countOcc pat s = 0 ↔ listContains pat s = false := by
  intro s
  induction s with
  | nil =>
    simp only [countOcc, listContains]
    cases isPref pat [] <;> simp
  | cons ch s ih =>
    simp only [countOcc, listContains]
    cases isPref pat (ch :: s) <;> simp [ih]

theorem listContains_nil_pat : ∀ (s : List Char), listContains [] s = true := by
  intro s
  cases s with
  | nil => rfl
  | cons c s' => simp [listContains, isPref]

theorem listContains_append_extend (pat : List Char) : ∀ (h : List Char),
    listContains pat h = true → ∀ (t : List Char), listContains pat (h ++ t) = true := by
  intro h
  induction h with
  | nil =>
    intro hh t
    cases pat with
    | nil => exact listContains_nil_pat t
    | cons a p => simp [listContains, isPref] at hh
  | cons x h' ih =>
    intro hh t
    simp only [listContains, Bool.or_eq_true] at hh
    simp only [List.cons_append, listContains, Bool.or_eq_true]
    rcases hh with h1 | h2
    · exact Or.inl (isPref_append_extend pat (x :: h') t h1)
    · exact Or.inr (ih h2 t)

/-! ## Claims about the header injector -/

/-- C1: Header injection is idempotent: for content `C` without the marker,
a second `ensure_speculate_header` call returns the content of the first
call unchanged (action `unchanged`, no write), and the marker occurs
exactly once in the final content. -/
theorem ensure_header_idempotent (C : String) (h : containsMarker C = false) :
    ensure_speculate_header (some (ensure_speculate_header (some C)).1) =
      ((ensure_speculate_header (some C)).1, HeaderAction.unchanged) ∧
    countOcc SPECULATE_MARKER.toList (ensure_speculate_header (some C)).1.toList = 1 := by
  have h1 : ensure_speculate_header (some C) =
      (SPECULATE_HEADER ++ "\n\n" ++ C, HeaderAction.updated) := by
    simp [ensure_speculate_header, h]
  rw [h1]
  have htl : (SPECULATE_HEADER ++ "\n\n" ++ C).toList =
      (SPECULATE_HEADER ++ "\n\n").toList ++ C.toList := stringToListAppend _ _
  constructor
  · have hcm : containsMarker (SPECULATE_HEADER ++ "\n\n" ++ C) = true := by
      unfold containsMarker
      rw [htl]
      exact listContains_append_extend _ _ (by decide) _
    simp [ensure_speculate_header, hcm]
  · rw [htl]
    rw [countOcc_append _ (by decide) '\n' (by decide) _ (by decide) _]
    rw [(countOcc_eq_zero_iff _ _).mpr h]
    decide

theorem ensure_header_idempotent_witness :
    containsMarker "hello" = false ∧
    (ensure_speculate_header (some (ensure_speculate_header (some "hello")).1) =
      ((ensure_speculate_header (some "hello")).1, HeaderAction.unchanged) ∧
    countOcc SPECULATE_MARKER.toList (ensure_speculate_header (some "hello")).1.toList = 1) :=
  ⟨by decide, ensure_header_idempotent "hello" (by decide)⟩

/-- C5: `ensure_speculate_header` performs exactly the three-way case
analysis: marker present → `unchanged` with untouched content; file
exists without marker → header, blank line, original content, `updated`;
file absent → header plus trailing newline, `created`. -/
theorem ensure_header_case_analysis :
    (∀ C : String, containsMarker C = true →
      ensure_speculate_header (some C) = (C, HeaderAction.unchanged)) ∧
    (∀ C : String, containsMarker C = false →
      ensure_speculate_header (some C) =
        (SPECULATE_HEADER ++ "\n\n" ++ C, HeaderAction.updated)) ∧
    ensure_speculate_header none = (SPECULATE_HEADER ++ "\n", HeaderAction.created) := by
  refine ⟨fun C h => ?_, fun C h => ?_, rfl⟩ <;> simp [ensure_speculate_header, h]

theorem ensure_header_case_analysis_witness :
    ensure_speculate_header (some "(This project uses Speculate project structure.)") =
      ("(This project uses Speculate project structure.)", HeaderAction.unchanged) ∧
    ensure_speculate_header (some "hi") =
      (SPECULATE_HEADER ++ "\n\n" ++ "hi", HeaderAction.updated) ∧
    ensure_speculate_header none = (SPECULATE_HEADER ++ "\n", HeaderAction.created) :=
  ⟨ensure_header_case_analysis.1 _ (by decide),
   ensure_header_case_analysis.2.1 "hi" (by decide),
   ensure_header_case_analysis.2.2⟩

/-- C10: marker detection is a substring search over the whole file, not a
prefix check: content containing the marker anywhere is left byte
identical with action `unchanged`, and in particular the header is never
prepended, so a file that does not begin with the header still does not
after the call. -/
theorem marker_anywhere_unchanged (C : String) (h : containsMarker C = true) :
    ensure_speculate_header (some C) = (C, HeaderAction.unchanged) ∧
    (isPref SPECULATE_HEADER.toList C.toList = false →
      isPref SPECULATE_HEADER.toList (ensure_speculate_header (some C)).1.toList = false) := by
  have h1 : ensure_speculate_header (some C) = (C, HeaderAction.unchanged) := by
    simp [ensure_speculate_header, h]
  exact ⟨h1, fun hnp => by rw [h1]; exact hnp⟩

theorem marker_anywhere_unchanged_witness :
    containsMarker "Intro.\nWe rely on the Speculate project structure here.\nEnd." = true ∧
    ensure_speculate_header (some "Intro.\nWe rely on the Speculate project structure here.\nEnd.") =
      ("Intro.\nWe rely on the Speculate project structure here.\nEnd.", HeaderAction.unchanged) ∧
    isPref SPECULATE_HEADER.toList
      (ensure_speculate_header
        (some "Intro.\nWe rely on the Speculate project structure here.\nEnd.")).1.toList = false := by
  have hm : containsMarker "Intro.\nWe rely on the Speculate project structure here.\nEnd." = true := by
    decide
  have h := marker_anywhere_unchanged _ hm
  exact ⟨hm, h.1, h.2 (by decide)⟩

/-! ## Helper lemmas: glob matching -/

theorem anyCongrB {α : Type} (l : List α) (p q : α → Bool) (h : ∀ x ∈ l, p x = q x) :
    l.any p = l.any q := by
  induction l with
  | nil => rfl
  | cons a l ih =>
    simp only [List.any_cons]
    rw [h a (List.mem_cons_self a l), ih (fun x hx => h x (List.mem_cons_of_mem a hx))]

theorem glob_star_absorb (p : List Char) (s : List Char) :
    glob ('*' :: '*' :: p) s = glob ('*' :: p) s := by
  have liff : glob ('*' :: '*' :: p) s = true ↔ glob ('*' :: p) s = true := by
    constructor
    · intro h
      rw [show glob ('*' :: '*' :: p) s = (List.range (s.length + 1)).any
            (fun i => glob ('*' :: p) (s.drop i)) from rfl] at h
      rw [List.any_eq_true] at h
      obtain ⟨i, hi, hg⟩ := h
      rw [show glob ('*' :: p) (s.drop i) = (List.range ((s.drop i).length + 1)).any
            (fun j => glob p ((s.drop i).drop j)) from rfl] at hg
      rw [List.any_eq_true] at hg
      obtain ⟨j, hj, hg2⟩ := hg
      rw [List.drop_drop] at hg2
      rw [show glob ('*' :: p) s = (List.range (s.length + 1)).any
            (fun k => glob p (s.drop k)) from rfl]
      rw [List.any_eq_true]
      refine ⟨i + j, ?_, hg2⟩
      rw [List.mem_range] at hi hj ⊢
      rw [List.length_drop] at hj
      omega
    · intro h
      rw [show glob ('*' :: p) s = (List.range (s.length + 1)).any
            (fun k => glob p (s.drop k)) from rfl] at h
      rw [List.any_eq_true] at h
      obtain ⟨k, hk, hg⟩ := h
      rw [show glob ('*' :: '*' :: p) s = (List.range (s.length + 1)).any
            (fun i => glob ('*' :: p) (s.drop i)) from rfl]
      rw [List.any_eq_true]
      refine ⟨0, by rw [List.mem_range]; omega, ?_⟩
      rw [show glob ('*' :: p) (s.drop 0) = (List.range ((s.drop 0).length + 1)).any
            (fun j => glob p ((s.drop 0).drop j)) from rfl]
      rw [List.any_eq_true]
      refine ⟨k, ?_, ?_⟩
      · rw [List.mem_range, List.length_drop]
        rw [List.mem_range] at hk
        omega
      · rw [List.drop_drop]
        simpa using hg
  cases h1 : glob ('*' :: '*' :: p) s <;> cases h2 : glob ('*' :: p) s <;> simp_all

theorem glob_append_congr (p₁ p₂ : List Char) (h : ∀ s, glob p₁ s = glob p₂ s) :
    ∀ (a s : List Char), glob (a ++ p₁) s = glob (a ++ p₂) s := by
  intro a
  induction a with
  | nil => exact h
  | cons x a ih =>
    intro s
    by_cases hx : x = '*'
    · subst hx
      rw [List.cons_append, List.cons_append]
      rw [show glob ('*' :: (a ++ p₁)) s = (List.range (s.length + 1)).any
            (fun i => glob (a ++ p₁) (s.drop i)) from rfl]
      rw [show glob ('*' :: (a ++ p₂)) s = (List.range (s.length + 1)).any
            (fun i => glob (a ++ p₂) (s.drop i)) from rfl]
      exact anyCongrB _ _ _ (fun i _ => ih (s.drop i))
    · rw [List.cons_append, List.cons_append]
      cases s with
      | nil => simp [glob, hx]
      | cons c s' =>
        simp only [glob, if_neg hx]
        rw [ih s']

theorem getD_nil_of_truthy_false (o : Option (List String)) (h : truthy o = false) :
    o.getD [] = [] := by
  cases o with
  | none => rfl
  | some l =>
    cases l with
    | nil => rfl
    | cons a l' => simp [truthy] at h

/-! ## Claim about the pattern matcher -/

/-- C6: the pattern matcher is a pure predicate on the bare filename:
an empty or absent include list passes the include stage; otherwise the
name must glob-match some include pattern; a name passing the include
stage is rejected exactly when it glob-matches some exclude pattern; and
a double star in a pattern matches identically to a single star. -/
theorem matches_patterns_spec (f : String) (incPats excPats : Option (List String)) :
    (matches_patterns f incPats excPats = true ↔
      ((truthy incPats = true → anyMatch f (incPats.getD []) = true) ∧
        anyMatch f (excPats.getD []) = false)) ∧
    (∀ (a b s : List Char), glob (a ++ '*' :: '*' :: b) s = glob (a ++ '*' :: b) s) := by
  constructor
  · have hkey : truthy excPats = false → anyMatch f (excPats.getD []) = false := by
      intro h
      rw [getD_nil_of_truthy_false _ h]
      rfl
    unfold matches_patterns
    cases hti : truthy incPats <;> cases hai : anyMatch f (incPats.getD []) <;>
      cases hte : truthy excPats <;> cases hae : anyMatch f (excPats.getD []) <;>
        simp_all
  · intro a b s
    exact glob_append_congr _ _ (glob_star_absorb b) a s

theorem matches_patterns_spec_witness :
    matches_patterns "general-rules.md" (some ["general-*.md"]) (some ["convex-*.md"]) = true ∧
    glob ("a".toList ++ '*' :: '*' :: ".md".toList) "ab.md".toList =
      glob ("a".toList ++ '*' :: ".md".toList) "ab.md".toList :=
  ⟨(matches_patterns_spec "general-rules.md" (some ["general-*.md"])
        (some ["convex-*.md"])).1.mpr ⟨fun _ => by decide, by decide⟩,
   (matches_patterns_spec "x" none none).2 "a".toList ".md".toList "ab.md".toList⟩

/-! ## Helper lemmas: the settings mapping -/

theorem find?_map_setKey (k k' : String) (v : YVal) (hk : k' ≠ k) :
    ∀ (d : List (String × YVal)),
      (d.map fun p => if p.1 == k then (k, v) else p).find? (fun p => p.1 == k') =
        d.find? (fun p => p.1 == k') := by
  intro d
  induction d with
  | nil => rfl
  | cons q d ih =>
    simp only [List.map_cons]
    by_cases hq : q.1 = k
    · rw [if_pos (by simp [hq])]
      rw [List.find?_cons_of_neg _ (by simp [Ne.symm hk]),
        List.find?_cons_of_neg _ (by simp [hq, Ne.symm hk])]
      exact ih
    · rw [if_neg (by simp [hq])]
      by_cases hq' : q.1 = k'
      · rw [List.find?_cons_of_pos _ (by simp [hq']), List.find?_cons_of_pos _ (by simp [hq'])]
      · rw [List.find?_cons_of_neg _ (by simp [hq']), List.find?_cons_of_neg _ (by simp [hq'])]
        exact ih

theorem find?_append_setKey (k k' : String) (v : YVal) (hk : k' ≠ k) :
    ∀ (d : List (String × YVal)),
      (d ++ [(k, v)]).find? (fun p => p.1 == k') = d.find? (fun p => p.1 == k') := by
  intro d
  induction d with
  | nil =>
    simp only [List.nil_append]
    rw [List.find?_cons_of_neg _ (by simp [Ne.symm hk])]
  | cons q d ih =>
    simp only [List.cons_append]
    by_cases hq' : q.1 = k'
    · rw [List.find?_cons_of_pos _ (by simp [hq']), List.find?_cons_of_pos _ (by simp [hq'])]
    · rw [List.find?_cons_of_neg _ (by simp [hq']), List.find?_cons_of_neg _ (by simp [hq'])]
      exact ih

theorem dictSet_find_ne (d : List (String × YVal)) (k k' : String) (v : YVal) (hk : k' ≠ k) :
    (dictSet d k v).find? (fun p => p.1 == k') = d.find? (fun p => p.1 == k') := by
  unfold dictSet
  split
  · exact find?_map_setKey k k' v hk d
  · exact find?_append_setKey k k' v hk d

theorem find?_map_setKey_self (k : String) (v : YVal) : ∀ (d : List (String × YVal)),
    d.any (fun p => p.1 == k) = true →
      (d.map fun p => if p.1 == k then (k, v) else p).find? (fun p => p.1 == k) =
        some (k, v) := by
  intro d
  induction d with
  | nil => intro h; cases h
  | cons q d ih =>
    intro h
    simp only [List.map_cons]
    by_cases hq : q.1 = k
    · rw [if_pos (by simp [hq])]
      rw [List.find?_cons_of_pos _ (by simp)]
    · rw [if_neg (by simp [hq])]
      rw [List.find?_cons_of_neg _ (by simp [hq])]
      apply ih
      simp only [List.any_cons, Bool.or_eq_true] at h
      rcases h with h | h
      · exact absurd (by simpa using h) hq
      · exact h

theorem find?_append_setKey_self (k : String) (v : YVal) : ∀ (d : List (String × YVal)),
    d.any (fun p => p.1 == k) = false →
      (d ++ [(k, v)]).find? (fun p => p.1 == k) = some (k, v) := by
  intro d
  induction d with
  | nil =>
    intro _
    simp only [List.nil_append]
    rw [List.find?_cons_of_pos _ (by simp)]
  | cons q d ih =>
    intro h
    simp only [List.any_cons, Bool.or_eq_false_iff] at h
    simp only [List.cons_append]
    rw [List.find?_cons_of_neg _ (by simp [h.1])]
    exact ih h.2

theorem dictSet_find_self (d : List (String × YVal)) (k : String) (v : YVal) :
    (dictSet d k v).find? (fun p => p.1 == k) = some (k, v) := by
  unfold dictSet
  split
  · rename_i h
    exact find?_map_setKey_self k v d h
  · rename_i h
    exact find?_append_setKey_self k v d (by simp only [Bool.not_eq_true] at h; exact h)

/-! ## Claims about the install metadata store -/

/-- C4 counterexample: a pre-existing settings file whose content fails to
parse as YAML (for example the text `"a: ["`) is NOT treated as "no prior
record": `_load_yaml` has no exception handler, so the parse error
escapes `_update_speculate_settings` and no record is written. -/
theorem corrupt_metadata_counterexample :
    update_speculate_settings "2026-01-01T00:00:00+00:00" (some "0.1.0") none
      (some YamlDoc.malformed) = .error () := rfl

/-- C4 (amended): a pre-existing settings file whose content parses as
YAML but not as a mapping is treated exactly like an absent record and
the install still writes a record with the standard keys; a settings
file whose content fails to parse makes the operation raise instead. -/
theorem corrupt_metadata_behavior (now : String) (cliVersion : Option String)
    (ansDoc : Option YamlDoc) (m : List (String × YVal)) :
    update_speculate_settings now cliVersion ansDoc (some YamlDoc.nonDict) =
      update_speculate_settings now cliVersion ansDoc none ∧
    update_speculate_settings now cliVersion (some (YamlDoc.dict m)) (some YamlDoc.nonDict) =
      .ok [("last_update", YVal.str now),
           ("last_cli_version", YVal.str (cliVersion.getD "unknown")),
           ("last_docs_version", dictGetD m "_commit" (YVal.str "unknown"))] ∧
    update_speculate_settings now cliVersion ansDoc (some YamlDoc.malformed) = .error () :=
  ⟨rfl, rfl, rfl⟩

theorem settings_chain_facts (m : List (String × YVal)) (k : String) (vlu vlcv : YVal)
    (h1 : k ≠ "last_update") (h2 : k ≠ "last_cli_version") :
    ((dictSet (dictSet m "last_update" vlu) "last_cli_version" vlcv).find?
        (fun p => p.1 == k) = m.find? (fun p => p.1 == k)) ∧
    ((dictSet (dictSet m "last_update" vlu) "last_cli_version" vlcv).find?
        (fun p => p.1 == "last_update") = some ("last_update", vlu)) ∧
    ((dictSet (dictSet m "last_update" vlu) "last_cli_version" vlcv).find?
        (fun p => p.1 == "last_cli_version") = some ("last_cli_version", vlcv)) := by
  refine ⟨?_, ?_, ?_⟩
  · rw [dictSet_find_ne _ _ _ _ h2, dictSet_find_ne _ _ _ _ h1]
  · rw [dictSet_find_ne _ _ _ _ (by decide), dictSet_find_self]
  · rw [dictSet_find_self]

/-- C7: `_update_speculate_settings` preserves unknown keys of a
well-formed pre-existing record: any key other than the three standard
ones looks up to the same value before and after, and the standard keys
`last_update` / `last_cli_version` are set to the new values. -/
theorem settings_preserve_unknown_keys (now : String) (cliVersion : Option String)
    (ansDoc : Option YamlDoc) (m : List (String × YVal)) (k : String)
    (hans : ansDoc ≠ some YamlDoc.malformed)
    (h1 : k ≠ "last_update") (h2 : k ≠ "last_cli_version") (h3 : k ≠ "last_docs_version") :
    ∃ r, update_speculate_settings now cliVersion ansDoc (some (YamlDoc.dict m)) = .ok r ∧
      r.find? (fun p => p.1 == k) = m.find? (fun p => p.1 == k) ∧
      r.find? (fun p => p.1 == "last_update") = some ("last_update", YVal.str now) ∧
      r.find? (fun p => p.1 == "last_cli_version") =
        some ("last_cli_version", YVal.str (cliVersion.getD "unknown")) := by
  obtain ⟨c1, c2, c3⟩ := settings_chain_facts m k (YVal.str now)
    (YVal.str (cliVersion.getD "unknown")) h1 h2
  cases ansDoc with
  | none => exact ⟨_, rfl, c1, c2, c3⟩
  | some doc =>
    cases doc with
    | malformed => exact absurd rfl hans
    | nonDict =>
      refine ⟨_, rfl, ?_, ?_, ?_⟩
      · rw [dictSet_find_ne _ _ _ _ h3]
        exact c1
      · rw [dictSet_find_ne _ _ _ _ (by decide)]
        exact c2
      · rw [dictSet_find_ne _ _ _ _ (by decide)]
        exact c3
    | dict a =>
      refine ⟨_, rfl, ?_, ?_, ?_⟩
      · rw [dictSet_find_ne _ _ _ _ h3]
        exact c1
      · rw [dictSet_find_ne _ _ _ _ (by decide)]
        exact c2
      · rw [dictSet_find_ne _ _ _ _ (by decide)]
        exact c3

theorem settings_preserve_unknown_keys_witness :
    ∃ r, update_speculate_settings "2026-01-01T00:00:00+00:00" (some "0.1.0") none
        (some (YamlDoc.dict [("x", YVal.str "y")])) = .ok r ∧
      r.find? (fun p => p.1 == "x") = some ("x", YVal.str "y") ∧
      r.find? (fun p => p.1 == "last_update") =
        some ("last_update", YVal.str "2026-01-01T00:00:00+00:00") ∧
      r.find? (fun p => p.1 == "last_cli_version") =
        some ("last_cli_version", YVal.str "0.1.0") := by
  obtain ⟨r, hok, hx, hlu, hlcv⟩ := settings_preserve_unknown_keys
    "2026-01-01T00:00:00+00:00" (some "0.1.0") none [("x", YVal.str "y")] "x"
    (by intro h; cases h) (by decide) (by decide) (by decide)
  refine ⟨r, hok, ?_, hlu, hlcv⟩
  rw [hx]
  rfl

/-! ## Helper lemmas: the cursor-rules projection -/

theorem removeLink_map_fst (nm : String) : ∀ (links : List (String × String)),
    (removeLink links nm).map Prod.fst = (links.map Prod.fst).filter (fun x => x != nm) := by
  intro links
  induction links with
  | nil => rfl
  | cons q links ih =>
    simp only [removeLink] at ih ⊢
    simp only [List.filter_cons, List.map_cons]
    cases hq : (q.1 != nm) <;> simp [hq, ih]

theorem processRules_mem (incPats excPats : Option (List String)) :
    ∀ (fs : List String) (links : List (String × String)) (a b : Nat) (n : String),
      n ∈ (processRules incPats excPats fs links a b).1.map Prod.fst ↔
        (n ∈ links.map Prod.fst ∨
          ∃ f, f ∈ fs ∧ matches_patterns f incPats excPats = true ∧
            n = mdStem f ++ ".mdc") := by
  intro fs
  induction fs with
  | nil =>
    intro links a b n
    simp [processRules]
  | cons f fs ih =>
    intro links a b n
    by_cases hm : matches_patterns f incPats excPats = true
    · have hstep : processRules incPats excPats (f :: fs) links a b =
          processRules incPats excPats fs
            (removeLink links (mdStem f ++ ".mdc") ++ [(mdStem f ++ ".mdc", f)])
            (a + 1) b := by
        simp [processRules, hm]
      rw [hstep, ih]
      constructor
      · rintro (hmem | ⟨f', hf', hm', he⟩)
        · rw [List.map_append, List.mem_append] at hmem
          rcases hmem with h1 | h2
          · rw [removeLink_map_fst, List.mem_filter] at h1
            exact Or.inl h1.1
          · exact Or.inr ⟨f, List.mem_cons_self f fs, hm, by simpa using h2⟩
        · exact Or.inr ⟨f', List.mem_cons_of_mem f hf', hm', he⟩
      · rintro (hmem | ⟨f', hf', hm', he⟩)
        · by_cases hn : n = mdStem f ++ ".mdc"
          · refine Or.inl ?_
            rw [List.map_append, List.mem_append]
            exact Or.inr (by simpa using hn)
          · refine Or.inl ?_
            rw [List.map_append, List.mem_append]
            refine Or.inl ?_
            rw [removeLink_map_fst, List.mem_filter]
            exact ⟨hmem, by simpa using hn⟩
        · rcases List.mem_cons.mp hf' with rfl | hf''
          · refine Or.inl ?_
            rw [List.map_append, List.mem_append]
            exact Or.inr (by simpa using he)
          · exact Or.inr ⟨f', hf'', hm', he⟩
    · have hstep : processRules incPats excPats (f :: fs) links a b =
          processRules incPats excPats fs links a (b + 1) := by
        simp [processRules, hm]
      rw [hstep, ih]
      constructor
      · rintro (hmem | ⟨f', hf', hm', he⟩)
        · exact Or.inl hmem
        · exact Or.inr ⟨f', List.mem_cons_of_mem f hf', hm', he⟩
      · rintro (hmem | ⟨f', hf', hm', he⟩)
        · exact Or.inl hmem
        · rcases List.mem_cons.mp hf' with rfl | hf''
          · exact absurd hm' hm
          · exact Or.inr ⟨f', hf'', hm', he⟩

theorem processRules_nodup (incPats excPats : Option (List String)) :
    ∀ (fs : List String) (links : List (String × String)) (a b : Nat),
      (links.map Prod.fst).Nodup →
        ((processRules incPats excPats fs links a b).1.map Prod.fst).Nodup := by
  intro fs
  induction fs with
  | nil =>
    intro links a b h
    simpa [processRules] using h
  | cons f fs ih =>
    intro links a b h
    by_cases hm : matches_patterns f incPats excPats = true
    · have hstep : processRules incPats excPats (f :: fs) links a b =
          processRules incPats excPats fs
            (removeLink links (mdStem f ++ ".mdc") ++ [(mdStem f ++ ".mdc", f)])
            (a + 1) b := by
        simp [processRules, hm]
      rw [hstep]
      apply ih
      have hnd : ((links.map Prod.fst).filter (fun x => x != (mdStem f ++ ".mdc")) ++
          [mdStem f ++ ".mdc"]).Nodup := by
        rw [List.nodup_append]
        refine ⟨h.filter _, List.nodup_singleton _, ?_⟩
        intro x hx hx2
        rw [List.mem_filter] at hx
        rw [List.mem_singleton] at hx2
        exact absurd hx2 (by simpa using hx.2)
      simpa [removeLink_map_fst] using hnd
    · have hstep : processRules incPats excPats (f :: fs) links a b =
          processRules incPats excPats fs links a (b + 1) := by
        simp [processRules, hm]
      rw [hstep]
      exact ih links a (b + 1) h

theorem processRules_targets (incPats excPats : Option (List String)) :
    ∀ (fs : List String) (links : List (String × String)) (a b : Nat)
      (p : String × String), p ∈ (processRules incPats excPats fs links a b).1 →
        p ∈ links ∨ (p.2 ∈ fs ∧ matches_patterns p.2 incPats excPats = true ∧
          p.1 = mdStem p.2 ++ ".mdc") := by
  intro fs
  induction fs with
  | nil =>
    intro links a b p hp
    exact Or.inl (by simpa [processRules] using hp)
  | cons f fs ih =>
    intro links a b p hp
    by_cases hm : matches_patterns f incPats excPats = true
    · have hstep : processRules incPats excPats (f :: fs) links a b =
          processRules incPats excPats fs
            (removeLink links (mdStem f ++ ".mdc") ++ [(mdStem f ++ ".mdc", f)])
            (a + 1) b := by
        simp [processRules, hm]
      rw [hstep] at hp
      rcases ih _ _ _ p hp with h1 | h2
      · rw [List.mem_append] at h1
        rcases h1 with h1 | h1
        · exact Or.inl (List.mem_of_mem_filter h1)
        · right
          have hpf : p = (mdStem f ++ ".mdc", f) := by simpa using h1
          rw [hpf]
          exact ⟨List.mem_cons_self f fs, hm, rfl⟩
      · exact Or.inr ⟨List.mem_cons_of_mem f h2.1, h2.2.1, h2.2.2⟩
    · have hstep : processRules incPats excPats (f :: fs) links a b =
          processRules incPats excPats fs links a (b + 1) := by
        simp [processRules, hm]
      rw [hstep] at hp
      rcases ih _ _ _ p hp with h1 | h2
      · exact Or.inl h1
      · exact Or.inr ⟨List.mem_cons_of_mem f h2.1, h2.2.1, h2.2.2⟩

theorem insertSorted_perm (x : String) : ∀ (l : List String),
    (insertSorted x l).Perm (x :: l) := by
  intro l
  induction l with
  | nil => exact List.Perm.refl _
  | cons y ys ih =>
    simp only [insertSorted]
    split
    · exact (ih.cons y).trans (List.Perm.swap x y ys)
    · exact List.Perm.refl _

theorem sortNames_perm : ∀ (l : List String), (sortNames l).Perm l := by
  intro l
  induction l with
  | nil => exact List.Perm.refl _
  | cons x xs ih => exact (insertSorted_perm x (sortNames xs)).trans (ih.cons x)

theorem setup_cursor_rules_mem (files : List String) (incPats excPats : Option (List String))
    (links0 : List (String × String)) (n : String) :
    n ∈ (setup_cursor_rules (some files) incPats excPats links0).links.map Prod.fst ↔
      (n ∈ links0.map Prod.fst ∨
        ∃ f, f ∈ files ∧ isMdName f = true ∧ matches_patterns f incPats excPats = true ∧
          n = mdStem f ++ ".mdc") := by
  show n ∈ (processRules incPats excPats (sortNames (files.filter isMdName))
      links0 0 0).1.map Prod.fst ↔ _
  rw [processRules_mem]
  constructor
  · rintro (h | ⟨f, hf, hm, he⟩)
    · exact Or.inl h
    · have hf' : f ∈ files.filter isMdName := (sortNames_perm _).mem_iff.mp hf
      rw [List.mem_filter] at hf'
      exact Or.inr ⟨f, hf'.1, hf'.2, hm, he⟩
  · rintro (h | ⟨f, hf, hmd, hm, he⟩)
    · exact Or.inl h
    · exact Or.inr ⟨f, (sortNames_perm _).mem_iff.mpr (List.mem_filter.mpr ⟨hf, hmd⟩), hm, he⟩

/-! ## Claims about the symlink projection -/

/-- C2 counterexample: with source documents `a.md`, `b.md`, projecting
with the include filter `["a.md"]` and then with the disjoint include
filter `["b.md"]` does NOT leave exactly the `b`-link: the stale `a.mdc`
link from the first run is still present. -/
theorem projection_rebuild_counterexample :
    ¬ (∀ n : String,
        n ∈ (setup_cursor_rules (some ["a.md", "b.md"]) (some ["b.md"]) none
              (setup_cursor_rules (some ["a.md", "b.md"]) (some ["a.md"]) none
                []).links).links.map Prod.fst ↔
          ∃ f, f ∈ ["a.md", "b.md"] ∧ isMdName f = true ∧
            matches_patterns f (some ["b.md"]) none = true ∧
            n = mdStem f ++ ".mdc") := by
  intro h
  obtain ⟨f, hf, -, hm, he⟩ := (h "a.mdc").mp (by decide)
  rcases List.mem_cons.mp hf with rfl | hf'
  · exact absurd hm (by decide)
  · rcases List.mem_cons.mp hf' with rfl | hf''
    · exact absurd he (by decide)
    · exact List.not_mem_nil f hf''

/-- C2 (amended): the projection accumulates rather than rebuilds: after
projecting with filter (i1, e1) into an empty link directory and then
with (i2, e2), the link names are exactly those of documents matching
EITHER filter — links created only under the first filter are not
removed by the second run. -/
theorem projection_accumulates (files : List String) (i1 e1 i2 e2 : Option (List String))
    (n : String) :
    n ∈ (setup_cursor_rules (some files) i2 e2
          (setup_cursor_rules (some files) i1 e1 []).links).links.map Prod.fst ↔
      ∃ f, f ∈ files ∧ isMdName f = true ∧
        (matches_patterns f i1 e1 = true ∨ matches_patterns f i2 e2 = true) ∧
        n = mdStem f ++ ".mdc" := by
  rw [setup_cursor_rules_mem, setup_cursor_rules_mem]
  constructor
  · rintro ((h | ⟨f, hf, hmd, hm, he⟩) | ⟨f, hf, hmd, hm, he⟩)
    · simp at h
    · exact ⟨f, hf, hmd, Or.inl hm, he⟩
    · exact ⟨f, hf, hmd, Or.inr hm, he⟩
  · rintro ⟨f, hf, hmd, hm | hm, he⟩
    · exact Or.inl (Or.inr ⟨f, hf, hmd, hm, he⟩)
    · exact Or.inr ⟨f, hf, hmd, hm, he⟩

theorem projection_accumulates_witness :
    "a.mdc" ∈ (setup_cursor_rules (some ["a.md"]) (some ["b*"]) none
        (setup_cursor_rules (some ["a.md"]) (some ["a*"]) none []).links).links.map
      Prod.fst :=
  (projection_accumulates ["a.md"] (some ["a*"]) none (some ["b*"]) none "a.mdc").mpr
    ⟨"a.md", by decide, by decide, Or.inl (by decide), by decide⟩

/-- C3 counterexample: a pre-existing entry in the link directory that
corresponds to no current source document survives a run, so after a run
over an arbitrary initial link directory the name set need not equal the
filtered source set. -/
theorem projection_stale_counterexample :
    ¬ (∀ n : String,
        n ∈ (setup_cursor_rules (some []) none none
            [("stale.mdc", "gone.md")]).links.map Prod.fst ↔
          ∃ f, f ∈ ([] : List String) ∧ isMdName f = true ∧
            matches_patterns f none none = true ∧ n = mdStem f ++ ".mdc") := by
  intro h
  obtain ⟨f, hf, -⟩ := (h "stale.mdc").mp (by decide)
  exact List.not_mem_nil f hf

/-- C3 (amended: the link directory starts empty, e.g. on the first run):
after a single run over source documents `files` with filters
(incPats, excPats) the link names are exactly the matching documents'
stems with the `.mdc` extension, each matching document has exactly one
link (the name list has no duplicates), and every link points back to a
matching source document. -/
theorem projection_fresh_exact (files : List String) (incPats excPats : Option (List String)) :
    (∀ n, n ∈ (setup_cursor_rules (some files) incPats excPats []).links.map Prod.fst ↔
      ∃ f, f ∈ files ∧ isMdName f = true ∧ matches_patterns f incPats excPats = true ∧
        n = mdStem f ++ ".mdc") ∧
    ((setup_cursor_rules (some files) incPats excPats []).links.map Prod.fst).Nodup ∧
    (∀ p, p ∈ (setup_cursor_rules (some files) incPats excPats []).links →
      p.2 ∈ files ∧ isMdName p.2 = true ∧ matches_patterns p.2 incPats excPats = true ∧
        p.1 = mdStem p.2 ++ ".mdc") := by
  refine ⟨fun n => ?_, ?_, fun p hp => ?_⟩
  · rw [setup_cursor_rules_mem]
    simp
  · show ((processRules incPats excPats (sortNames (files.filter isMdName))
        [] 0 0).1.map Prod.fst).Nodup
    exact processRules_nodup incPats excPats _ [] 0 0 (by simp)
  · have h := processRules_targets incPats excPats
      (sortNames (files.filter isMdName)) [] 0 0 p hp
    rcases h with h | h
    · cases h
    · obtain ⟨hf, hm, he⟩ := h
      have hf' : p.2 ∈ files.filter isMdName := (sortNames_perm _).mem_iff.mp hf
      rw [List.mem_filter] at hf'
      exact ⟨hf'.1, hf'.2, hm, he⟩

theorem projection_fresh_exact_witness :
    "a.mdc" ∈ (setup_cursor_rules (some ["a.md", "b.txt"]) none none []).links.map Prod.fst :=
  ((projection_fresh_exact ["a.md", "b.txt"] none none).1 "a.mdc").mpr
    ⟨"a.md", by decide, by decide, by decide, by decide⟩

/-! ## Claims about the orchestrator -/

theorem update_settings_ok (now : String) (cliVersion : Option String)
    (ansDoc setDoc : Option YamlDoc)
    (hset : setDoc ≠ some YamlDoc.malformed) (hans : ansDoc ≠ some YamlDoc.malformed) :
    ∃ s, update_speculate_settings now cliVersion ansDoc setDoc = .ok s := by
  have hinner : ∀ (m : List (String × YVal)),
      ∃ s, update_speculate_settings now cliVersion ansDoc (some (YamlDoc.dict m)) = .ok s := by
    intro m
    cases ansDoc with
    | none => exact ⟨_, rfl⟩
    | some d =>
      cases d with
      | malformed => exact absurd rfl hans
      | nonDict => exact ⟨_, rfl⟩
      | dict a => exact ⟨_, rfl⟩
  cases setDoc with
  | none =>
    cases ansDoc with
    | none => exact ⟨_, rfl⟩
    | some d =>
      cases d with
      | malformed => exact absurd rfl hans
      | nonDict => exact ⟨_, rfl⟩
      | dict a => exact ⟨_, rfl⟩
  | some d =>
    cases d with
    | malformed => exact absurd rfl hset
    | nonDict =>
      cases ansDoc with
      | none => exact ⟨_, rfl⟩
      | some d' =>
        cases d' with
        | malformed => exact absurd rfl hans
        | nonDict => exact ⟨_, rfl⟩
        | dict a => exact ⟨_, rfl⟩
    | dict m => exact hinner m

/-- C8: the orchestrator fails fast on its precondition: with `docs/`
absent, `install` terminates with `SystemExit(1)` and the project state
is exactly the input state (nothing mutated); with `docs/` present it
runs the metadata step, then the header injection on `CLAUDE.md` and
`AGENTS.md`, then the cursor-rules projection, producing the composed
final state (or propagating an uncaught metadata error). -/
theorem install_orchestration (now : String) (cliVersion : Option String)
    (incPats excPats : Option (List String)) (st : ProjectState) :
    (st.docsExists = false → install now cliVersion incPats excPats st = .exitError st) ∧
    (st.docsExists = true →
      (update_speculate_settings now cliVersion st.answersFile st.settingsFile = .error () →
        install now cliVersion incPats excPats st = .raised st) ∧
      (∀ settings,
        update_speculate_settings now cliVersion st.answersFile st.settingsFile =
          .ok settings →
        install now cliVersion incPats excPats st = .ok
          { st with settingsFile := some (YamlDoc.dict settings),
                    claudeMd := some (ensure_speculate_header st.claudeMd).1,
                    agentsMd := some (ensure_speculate_header st.agentsMd).1,
                    cursorLinks :=
                      (setup_cursor_rules st.rulesDir incPats excPats
                        st.cursorLinks).links })) := by
  refine ⟨fun h => ?_, fun h => ⟨fun he => ?_, fun s hs => ?_⟩⟩
  · unfold install
    rw [h, if_pos rfl]
  · unfold install
    rw [h, if_neg (by simp), he]
  · unfold install
    rw [h, if_neg (by simp), hs]

theorem install_orchestration_witness :
    install "t" none none none (ProjectState.mk false none none none none none []) =
      .exitError (ProjectState.mk false none none none none none []) :=
  (install_orchestration "t" none none none
    (ProjectState.mk false none none none none none [])).1 rfl

/-- C9: when the rules source directory is absent the projection is a
non-fatal no-op: it creates no links (zero counts, links untouched),
signals the condition as a warning (`warnedMissing`), and the overall
install still terminates successfully. -/
theorem projection_source_missing_nonfatal (now : String) (cliVersion : Option String)
    (incPats excPats : Option (List String)) (st : ProjectState)
    (hdocs : st.docsExists = true) (hrules : st.rulesDir = none)
    (hset : st.settingsFile ≠ some YamlDoc.malformed)
    (hans : st.answersFile ≠ some YamlDoc.malformed) :
    setup_cursor_rules st.rulesDir incPats excPats st.cursorLinks =
      ⟨st.cursorLinks, 0, 0, true⟩ ∧
    ∃ st', install now cliVersion incPats excPats st = .ok st' ∧
      st'.cursorLinks = st.cursorLinks := by
  have hproj : setup_cursor_rules st.rulesDir incPats excPats st.cursorLinks =
      ⟨st.cursorLinks, 0, 0, true⟩ := by rw [hrules]; rfl
  refine ⟨hproj, ?_⟩
  obtain ⟨s, hs⟩ := update_settings_ok now cliVersion st.answersFile st.settingsFile hset hans
  have hinst : install now cliVersion incPats excPats st = .ok
      { st with settingsFile := some (YamlDoc.dict s),
                claudeMd := some (ensure_speculate_header st.claudeMd).1,
                agentsMd := some (ensure_speculate_header st.agentsMd).1,
                cursorLinks :=
                  (setup_cursor_rules st.rulesDir incPats excPats st.cursorLinks).links } := by
    unfold install
    rw [hdocs, if_neg (by simp), hs]
  refine ⟨_, hinst, ?_⟩
  show (setup_cursor_rules st.rulesDir incPats excPats st.cursorLinks).links = st.cursorLinks
  rw [hproj]

theorem projection_source_missing_nonfatal_witness :
    setup_cursor_rules none none none [] = ⟨[], 0, 0, true⟩ ∧
    ∃ st', install "t" none none none
        (ProjectState.mk true none none none none none []) = .ok st' ∧
      st'.cursorLinks = [] :=
  projection_source_missing_nonfatal "t" none none none
    (ProjectState.mk true none none none none none []) rfl rfl (nofun) (nofun)
